import Mathlib

/-!
Verification of the review-minimization core of `minimize-resolved-pr-reviews`.

The TypeScript source is shallowly embedded:
* `comments.nodes` is modelled as a plain `List ReviewComment`;
* ISO-8601 `createdAt` strings are modelled as `Nat` instants (the code only
  compares them through `new Date(·).getTime()`);
* JavaScript `Map`s (which iterate in insertion order) are modelled as
  insertion-ordered association lists;
* the stable JavaScript `Array.prototype.sort` with comparator
  `(a, b) => time(b) - time(a)` is modelled as a stable descending
  insertion sort.
-/

namespace MinimizeReviews

/-- `{ login: string }` author object of a comment (src/types.ts). -/
structure CommentAuthor where
  login : String
deriving Repr, DecidableEq

/-- The `pullRequestReview` reference carried by a comment (src/types.ts). -/
structure PullRequestReviewRef where
  id : String
  createdAt : Nat
  isMinimized : Bool
deriving Repr, DecidableEq

/-- A comment within a review thread (src/types.ts `ReviewComment`). -/
structure ReviewComment where
  author : Option CommentAuthor
  pullRequestReview : Option PullRequestReviewRef
deriving Repr, DecidableEq

/-- A review thread on a PR (src/types.ts `ReviewThread`); `comments` models
`comments.nodes`. -/
structure ReviewThread where
  id : String
  isResolved : Bool
  comments : List ReviewComment
deriving Repr, DecidableEq

/-- Summary of a single thread within a review (src/types.ts `ThreadInfo`). -/
structure ThreadInfo where
  threadId : String
  isResolved : Bool
deriving Repr, DecidableEq

/-- A review grouped from its threads (src/types.ts `ReviewInfo`). -/
structure ReviewInfo where
  reviewId : String
  author : String
  createdAt : Nat
  isMinimized : Bool
  threads : List ThreadInfo
deriving Repr, DecidableEq

/-- A review from the PR's `reviews` connection (types.ts
`PullRequestReviewNode`). -/
structure PullRequestReviewNode where
  id : String
  author : Option CommentAuthor
  createdAt : Nat
  isMinimized : Bool
deriving Repr, DecidableEq

/-! ## groupThreadsByReview (src/reviews.ts lines 10-36) -/

/-- One iteration of the `for (const thread of threads)` loop of
`groupThreadsByReview`.  The JS `Map` keyed by review id is the
insertion-ordered list `reviewMap`; `Map.has` is the `any` check, the
"create entry then push" pair of the source collapses to inserting the
entry already holding its first `ThreadInfo`, and `Map.get(...).threads.push`
is the in-place update of the matching entry. -/
def groupStep (reviewMap : List ReviewInfo) (thread : ReviewThread) :
    List ReviewInfo :=
  match thread.comments.head? with
  | none => reviewMap
  | some firstComment =>
    match firstComment.author, firstComment.pullRequestReview with
    | some a, some review =>
      if reviewMap.any (fun ri => ri.reviewId == review.id) then
        reviewMap.map (fun ri =>
          if ri.reviewId == review.id then
            { ri with threads := ri.threads ++ [⟨thread.id, thread.isResolved⟩] }
          else ri)
      else
        reviewMap ++ [{ reviewId := review.id, author := a.login,
                        createdAt := review.createdAt,
                        isMinimized := review.isMinimized,
                        threads := [⟨thread.id, thread.isResolved⟩] }]
    | _, _ => reviewMap

/-- src/reviews.ts `groupThreadsByReview`: fold the loop body over the
threads, starting from the empty map; `Array.from(reviewMap.values())` is
the insertion-ordered list itself. -/
def groupThreadsByReview (threads : List ReviewThread) : List ReviewInfo :=
  threads.foldl groupStep []

/-! ## buildReviewList (part_000 lines 443-469) -/

/-- One iteration of the second pass of `buildReviewList`: skip records with
no author, skip ids already in the map, otherwise append a thread-less
`ReviewInfo`. -/
def bareStep (reviewMap : List ReviewInfo) (review : PullRequestReviewNode) :
    List ReviewInfo :=
  match review.author with
  | none => reviewMap
  | some a =>
    if reviewMap.any (fun ri => ri.reviewId == review.id) then reviewMap
    else
      reviewMap ++ [{ reviewId := review.id, author := a.login,
                      createdAt := review.createdAt,
                      isMinimized := review.isMinimized, threads := [] }]

/-- part_000 `buildReviewList`: first pass re-inserts the grouped reviews
(their ids are distinct, so the map is just the grouped list), second pass
folds `bareStep` over the bare review records. -/
def buildReviewList (threads : List ReviewThread)
    (allReviews : List PullRequestReviewNode) : List ReviewInfo :=
  allReviews.foldl bareStep (groupThreadsByReview threads)

/-! ## findReviewsToMinimize (src/reviews.ts lines 50-85) -/

/-- One iteration of the author-partition loop of `findReviewsToMinimize`:
`Map.has`/`Map.get(...).push` on the insertion-ordered `byAuthor` map. -/
def addToAuthorMap (m : List (String × List ReviewInfo)) (review : ReviewInfo) :
    List (String × List ReviewInfo) :=
  if m.any (fun p => p.1 == review.author) then
    m.map (fun p =>
      if p.1 == review.author then (p.1, p.2 ++ [review]) else p)
  else m ++ [(review.author, [review])]

/-- The `byAuthor` map of `findReviewsToMinimize`, in insertion order. -/
def byAuthor (reviews : List ReviewInfo) : List (String × List ReviewInfo) :=
  reviews.foldl addToAuthorMap []

/-- Stable insertion of a review into a descending-by-`createdAt` list:
the review goes before the first element whose timestamp is not strictly
greater, so earlier-input reviews stay before equal-timestamp ones. -/
def insertDesc (review : ReviewInfo) : List ReviewInfo → List ReviewInfo
  | [] => [review]
  | x :: xs =>
    if review.createdAt < x.createdAt then x :: insertDesc review xs
    else review :: x :: xs

/-- The `[...authorReviews].sort((a, b) => time(b) - time(a))` of
src/reviews.ts: a stable sort, descending by `createdAt`. -/
def sortDesc : List ReviewInfo → List ReviewInfo
  | [] => []
  | r :: rs => insertDesc r (sortDesc rs)

/-- The body of the `for (const [author, authorReviews] of byAuthor)` loop:
the allow-list guard, then the `sorted.slice(1)` pass that pushes the id of
every not-yet-minimized, fully-resolved review. -/
def perAuthor (allowedUsers : List String) (entry : String × List ReviewInfo) :
    List String :=
  if allowedUsers.length > 0 && !(allowedUsers.contains entry.1) then []
  else
    (((sortDesc entry.2).drop 1).filter
        (fun r => !r.isMinimized && r.threads.all (fun t => t.isResolved))).map
      (fun r => r.reviewId)

/-- src/reviews.ts `findReviewsToMinimize`: partition by author, then
concatenate the per-author pushes in map-iteration order. -/
def findReviewsToMinimize (reviews : List ReviewInfo)
    (allowedUsers : List String) : List String :=
  ((byAuthor reviews).map (perAuthor allowedUsers)).flatten

/-! ## Lemmas about the `byAuthor` partition -/

/-- In the update branch of `addToAuthorMap`, keys are unchanged. -/
lemma addToAuthorMap_update_keys (m : List (String × List ReviewInfo))
    (r : ReviewInfo) :
    ((m.map (fun p => if p.1 == r.author then (p.1, p.2 ++ [r]) else p)).map
      Prod.fst) = m.map Prod.fst := by
  rw [List.map_map]
  apply List.map_congr_left
  intro p hp
  by_cases hpr : (p.1 == r.author) = true
  · simp only [Function.comp_apply, if_pos hpr]
  · simp only [Function.comp_apply, if_neg hpr]

lemma addToAuthorMap_keys_sub (m : List (String × List ReviewInfo))
    (r : ReviewInfo) :
    m.map Prod.fst ⊆ (addToAuthorMap m r).map Prod.fst := by
  unfold addToAuthorMap
  by_cases h : (m.any fun p => p.1 == r.author) = true
  · rw [if_pos h, addToAuthorMap_update_keys]
    exact List.Subset.refl _
  · rw [if_neg h, List.map_append]
    exact fun a ha => List.mem_append_left _ ha

lemma addToAuthorMap_author_mem (m : List (String × List ReviewInfo))
    (r : ReviewInfo) :
    r.author ∈ (addToAuthorMap m r).map Prod.fst := by
  unfold addToAuthorMap
  by_cases h : (m.any fun p => p.1 == r.author) = true
  · rw [if_pos h, addToAuthorMap_update_keys]
    obtain ⟨p, hp, hpr⟩ := List.any_eq_true.mp h
    have : p.1 = r.author := beq_iff_eq.mp hpr
    exact this ▸ List.mem_map_of_mem Prod.fst hp
  · rw [if_neg h, List.map_append]
    exact List.mem_append_right _ (by simp)

lemma foldl_addToAuthorMap_keys_sub (rest : List ReviewInfo) :
    ∀ m : List (String × List ReviewInfo),
      m.map Prod.fst ⊆ (rest.foldl addToAuthorMap m).map Prod.fst := by
  induction rest with
  | nil => intro m; simp [List.Subset.refl]
  | cons r rest ih =>
    intro m
    simp only [List.foldl_cons]
    exact fun a ha => ih (addToAuthorMap m r) (addToAuthorMap_keys_sub m r ha)

lemma foldl_addToAuthorMap_author_mem (rest : List ReviewInfo) :
    ∀ (m : List (String × List ReviewInfo)) (r : ReviewInfo), r ∈ rest →
      r.author ∈ (rest.foldl addToAuthorMap m).map Prod.fst := by
  induction rest with
  | nil => intro m r hr; cases hr
  | cons x rest ih =>
    intro m r hr
    simp only [List.foldl_cons]
    rcases List.mem_cons.mp hr with hr | hr
    · subst hr
      exact foldl_addToAuthorMap_keys_sub rest _
        (addToAuthorMap_author_mem m r)
    · exact ih _ r hr

/-- Soundness of the author partition: an entry of the accumulated map is its
initial list extended by exactly the reviews of that author, in input order. -/
lemma foldl_addToAuthorMap_mem (rest : List ReviewInfo) :
    ∀ (m : List (String × List ReviewInfo)) (a : String)
      (l : List ReviewInfo),
      (a, l) ∈ rest.foldl addToAuthorMap m →
      ∃ l₀, ((a, l₀) ∈ m ∨ (l₀ = [] ∧ a ∉ m.map Prod.fst)) ∧
        l = l₀ ++ rest.filter (fun r => r.author == a) := by
  induction rest with
  | nil =>
    intro m a l hl
    exact ⟨l, Or.inl hl, by simp⟩
  | cons r rest ih =>
    intro m a l hl
    simp only [List.foldl_cons] at hl
    obtain ⟨l₀', h₀', hl'⟩ := ih (addToAuthorMap m r) a l hl
    unfold addToAuthorMap at h₀'
    by_cases h : (m.any fun p => p.1 == r.author) = true
    · rw [if_pos h] at h₀'
      rcases h₀' with h₀' | ⟨h₀'nil, h₀'keys⟩
      · obtain ⟨p, hp, hpeq⟩ := List.mem_map.mp h₀'
        obtain ⟨pa, pl⟩ := p
        by_cases hpr : (pa == r.author) = true
        · rw [if_pos hpr, Prod.mk.injEq] at hpeq
          obtain ⟨ha, hli⟩ := hpeq
          subst ha
          have har : r.author = pa := (beq_iff_eq.mp hpr).symm
          refine ⟨pl, Or.inl hp, ?_⟩
          rw [hl', ← hli, List.filter_cons]
          simp [beq_iff_eq, har, List.append_assoc]
        · rw [if_neg hpr, Prod.mk.injEq] at hpeq
          obtain ⟨ha, hli⟩ := hpeq
          subst ha
          subst hli
          have har : ¬(r.author = pa) := fun he =>
            hpr (beq_iff_eq.mpr he.symm)
          refine ⟨pl, Or.inl hp, ?_⟩
          rw [hl', List.filter_cons]
          simp [beq_iff_eq, har]
      · rw [addToAuthorMap_update_keys] at h₀'keys
        have har : ¬(r.author = a) := by
          intro he
          apply h₀'keys
          obtain ⟨p, hp, hpr⟩ := List.any_eq_true.mp h
          have hpa : p.1 = a := he ▸ beq_iff_eq.mp hpr
          exact hpa ▸ List.mem_map_of_mem Prod.fst hp
        refine ⟨[], Or.inr ⟨rfl, h₀'keys⟩, ?_⟩
        rw [hl', h₀'nil, List.filter_cons]
        simp [beq_iff_eq, har]
    · rw [if_neg h] at h₀'
      have hnkey : r.author ∉ m.map Prod.fst := by
        intro hmem
        obtain ⟨p, hp, hpa⟩ := List.mem_map.mp hmem
        exact h (List.any_eq_true.mpr ⟨p, hp, beq_iff_eq.mpr hpa⟩)
      rcases h₀' with h₀' | ⟨h₀'nil, h₀'keys⟩
      · rcases List.mem_append.mp h₀' with h₀' | h₀'
        · have har : ¬(r.author = a) := by
            intro he
            exact hnkey (he ▸ List.mem_map_of_mem Prod.fst h₀')
          refine ⟨l₀', Or.inl h₀', ?_⟩
          rw [hl', List.filter_cons]
          simp [beq_iff_eq, har]
        · simp only [List.mem_singleton, Prod.mk.injEq] at h₀'
          obtain ⟨ha, hl₀'⟩ := h₀'
          refine ⟨[], Or.inr ⟨rfl, ha ▸ hnkey⟩, ?_⟩
          rw [hl', hl₀', List.filter_cons]
          simp [beq_iff_eq, ha]
      · rw [List.map_append, List.mem_append] at h₀'keys
        push_neg at h₀'keys
        have har : ¬(r.author = a) := by
          intro he
          exact h₀'keys.2 (by simp [he])
        refine ⟨[], Or.inr ⟨rfl, fun hm => h₀'keys.1 hm⟩, ?_⟩
        rw [hl', h₀'nil, List.filter_cons]
        simp [beq_iff_eq, har]

/-- Every entry of the author partition holds exactly that author's reviews,
in input order. -/
lemma byAuthor_mem_eq {reviews : List ReviewInfo} {a : String}
    {l : List ReviewInfo} (h : (a, l) ∈ byAuthor reviews) :
    l = reviews.filter (fun r => r.author == a) := by
  obtain ⟨l₀, h₀, hl⟩ := foldl_addToAuthorMap_mem reviews [] a l h
  rcases h₀ with h₀ | ⟨rfl, -⟩
  · cases h₀
  · simpa using hl

/-- Every review's author has an entry in the author partition. -/
lemma byAuthor_key_exists {reviews : List ReviewInfo} {r : ReviewInfo}
    (h : r ∈ reviews) :
    (r.author, reviews.filter (fun x => x.author == r.author)) ∈
      byAuthor reviews := by
  have hkey := foldl_addToAuthorMap_author_mem reviews [] r h
  obtain ⟨p, hp, hpa⟩ := List.mem_map.mp hkey
  obtain ⟨pa, pl⟩ := p
  simp only at hpa
  subst hpa
  rw [byAuthor_mem_eq hp] at hp
  exact hp

/-- Entries of the author partition are never empty. -/
lemma foldl_addToAuthorMap_ne_nil (rest : List ReviewInfo) :
    ∀ m : List (String × List ReviewInfo), (∀ p ∈ m, p.2 ≠ []) →
      ∀ p ∈ rest.foldl addToAuthorMap m, p.2 ≠ [] := by
  induction rest with
  | nil => intro m hm; simpa using hm
  | cons r rest ih =>
    intro m hm
    simp only [List.foldl_cons]
    apply ih
    intro p hp
    unfold addToAuthorMap at hp
    by_cases h : (m.any fun q => q.1 == r.author) = true
    · rw [if_pos h] at hp
      obtain ⟨q, hq, hqe⟩ := List.mem_map.mp hp
      by_cases hqr : (q.1 == r.author) = true
      · rw [if_pos hqr] at hqe
        rw [← hqe]
        simp
      · rw [if_neg hqr] at hqe
        exact hqe ▸ hm q hq
    · rw [if_neg h] at hp
      rcases List.mem_append.mp hp with hp | hp
      · exact hm p hp
      · simp only [List.mem_singleton] at hp
        simp [hp]

/-- Every key of the author partition is the author of some input review. -/
lemma byAuthor_key_of_mem {reviews : List ReviewInfo} {a : String}
    {l : List ReviewInfo} (h : (a, l) ∈ byAuthor reviews) :
    ∃ r ∈ reviews, r.author = a := by
  have hne := foldl_addToAuthorMap_ne_nil reviews [] (by simp) (a, l) h
  have hl := byAuthor_mem_eq h
  rcases hx : l with _ | ⟨x, xs⟩
  · exact absurd hx hne
  · have hmm : x ∈ reviews.filter (fun r => r.author == a) := by
      rw [← hl, hx]
      exact List.mem_cons_self x xs
    have := List.mem_filter.mp hmm
    exact ⟨x, this.1, beq_iff_eq.mp this.2⟩

/-- Keys of the author partition are pairwise distinct. -/
lemma foldl_addToAuthorMap_keys_nodup (rest : List ReviewInfo) :
    ∀ m : List (String × List ReviewInfo), (m.map Prod.fst).Nodup →
      ((rest.foldl addToAuthorMap m).map Prod.fst).Nodup := by
  induction rest with
  | nil => intro m hm; simpa using hm
  | cons r rest ih =>
    intro m hm
    simp only [List.foldl_cons]
    apply ih
    unfold addToAuthorMap
    by_cases h : (m.any fun q => q.1 == r.author) = true
    · rw [if_pos h, addToAuthorMap_update_keys]
      exact hm
    · rw [if_neg h, List.map_append, List.nodup_append]
      refine ⟨hm, by simp, ?_⟩
      intro x hx
      simp only [List.map_singleton, List.mem_singleton]
      intro hxr
      subst hxr
      obtain ⟨p, hp, hpa⟩ := List.mem_map.mp hx
      exact h (List.any_eq_true.mpr ⟨p, hp, beq_iff_eq.mpr hpa⟩)

lemma byAuthor_keys_nodup (reviews : List ReviewInfo) :
    ((byAuthor reviews).map Prod.fst).Nodup :=
  foldl_addToAuthorMap_keys_nodup reviews [] (by simp)

/-! ## Lemmas about the stable descending sort -/

lemma insertDesc_perm (r : ReviewInfo) (l : List ReviewInfo) :
    (insertDesc r l).Perm (r :: l) := by
  induction l with
  | nil => simp [insertDesc]
  | cons x xs ih =>
    unfold insertDesc
    by_cases h : r.createdAt < x.createdAt
    · simp only [h, if_true]
      exact (ih.cons x).trans (List.Perm.swap r x xs)
    · simp [h]

lemma sortDesc_perm (l : List ReviewInfo) : (sortDesc l).Perm l := by
  induction l with
  | nil => simp [sortDesc]
  | cons r rs ih =>
    unfold sortDesc
    exact (insertDesc_perm r (sortDesc rs)).trans (ih.cons r)

lemma mem_sortDesc {l : List ReviewInfo} {x : ReviewInfo} :
    x ∈ sortDesc l ↔ x ∈ l :=
  (sortDesc_perm l).mem_iff

lemma sortDesc_nodup {l : List ReviewInfo} (h : l.Nodup) :
    (sortDesc l).Nodup :=
  ((sortDesc_perm l).nodup_iff).mpr h

/-! ## Membership characterization of `findReviewsToMinimize` -/

lemma allow_guard_eq_false {U : List String} {a : String}
    (h : U = [] ∨ a ∈ U) :
    (decide (U.length > 0) && !(U.contains a)) = false := by
  rcases h with h | h
  · subst h; simp
  · simp [h]

lemma allow_guard_cases {U : List String} {a : String}
    (h : ¬((decide (U.length > 0) && !(U.contains a)) = true)) :
    U = [] ∨ a ∈ U := by
  by_cases hU : U = []
  · exact Or.inl hU
  · refine Or.inr ?_
    by_contra ha
    apply h
    simp [hU, List.length_pos.mpr hU, ha]

lemma eligible_cond_iff (x : ReviewInfo) :
    (!x.isMinimized && x.threads.all (fun t => t.isResolved)) = true ↔
      x.isMinimized = false ∧ ∀ t ∈ x.threads, t.isResolved = true := by
  simp [List.all_eq_true]

lemma perAuthor_mem_iff {U : List String} {p : String × List ReviewInfo}
    {i : String} :
    i ∈ perAuthor U p ↔
      (U = [] ∨ p.1 ∈ U) ∧
      ∃ x, x ∈ (sortDesc p.2).drop 1 ∧ x.isMinimized = false ∧
        (∀ t ∈ x.threads, t.isResolved = true) ∧ x.reviewId = i := by
  unfold perAuthor
  by_cases hg : (decide (U.length > 0) && !(U.contains p.1)) = true
  · rw [if_pos hg]
    simp only [List.not_mem_nil, false_iff]
    rintro ⟨hU, -⟩
    rw [allow_guard_eq_false hU] at hg
    cases hg
  · rw [if_neg hg]
    constructor
    · intro hi
      obtain ⟨x, hx, hxi⟩ := List.mem_map.mp hi
      obtain ⟨hx1, hx2⟩ := List.mem_filter.mp hx
      obtain ⟨hmin, hres⟩ := (eligible_cond_iff x).mp hx2
      exact ⟨allow_guard_cases hg, x, hx1, hmin, hres, hxi⟩
    · rintro ⟨-, x, hx1, hmin, hres, hxi⟩
      apply List.mem_map.mpr
      refine ⟨x, List.mem_filter.mpr ⟨hx1, (eligible_cond_iff x).mpr
        ⟨hmin, hres⟩⟩, hxi⟩

lemma mem_findReviewsToMinimize_iff {reviews : List ReviewInfo}
    {U : List String} {i : String} :
    i ∈ findReviewsToMinimize reviews U ↔
      ∃ a l, (a, l) ∈ byAuthor reviews ∧ (U = [] ∨ a ∈ U) ∧
        ∃ x, x ∈ (sortDesc l).drop 1 ∧ x.isMinimized = false ∧
          (∀ t ∈ x.threads, t.isResolved = true) ∧ x.reviewId = i := by
  unfold findReviewsToMinimize
  rw [List.mem_flatten]
  constructor
  · rintro ⟨s, hs, hi⟩
    obtain ⟨p, hp, rfl⟩ := List.mem_map.mp hs
    obtain ⟨hU, x, hx⟩ := perAuthor_mem_iff.mp hi
    exact ⟨p.1, p.2, hp, hU, x, hx⟩
  · rintro ⟨a, l, hal, hU, x, hx⟩
    exact ⟨perAuthor U (a, l), List.mem_map_of_mem _ hal,
      perAuthor_mem_iff.mpr ⟨hU, x, hx⟩⟩

/-- Every output id comes from a non-minimized, fully-resolved input review
of an allowed author. -/
lemma output_review_exists {reviews : List ReviewInfo} {U : List String}
    {i : String} (h : i ∈ findReviewsToMinimize reviews U) :
    ∃ x, x ∈ reviews ∧ x.reviewId = i ∧ x.isMinimized = false ∧
      (∀ t ∈ x.threads, t.isResolved = true) ∧ (U = [] ∨ x.author ∈ U) := by
  obtain ⟨a, l, hal, hU, x, hx1, hx2, hx3, hx4⟩ :=
    mem_findReviewsToMinimize_iff.mp h
  have hl := byAuthor_mem_eq hal
  have hxl : x ∈ l := mem_sortDesc.mp (List.mem_of_mem_drop hx1)
  rw [hl] at hxl
  obtain ⟨hxr, hxa⟩ := List.mem_filter.mp hxl
  have hax : x.author = a := beq_iff_eq.mp hxa
  refine ⟨x, hxr, hx4, hx2, hx3, ?_⟩
  rcases hU with h | h
  · exact Or.inl h
  · exact Or.inr (hax ▸ h)

/-! ## Distinct review identifiers -/

lemma ids_ne_of_pairwise {reviews : List ReviewInfo}
    (h : reviews.Pairwise fun a b => a.reviewId ≠ b.reviewId)
    {x y : ReviewInfo} (hx : x ∈ reviews) (hy : y ∈ reviews) (hxy : x ≠ y) :
    x.reviewId ≠ y.reviewId :=
  h.forall (fun _ _ hne => hne.symm) hx hy hxy

lemma nodup_of_pairwise_ids {reviews : List ReviewInfo}
    (h : reviews.Pairwise fun a b => a.reviewId ≠ b.reviewId) :
    reviews.Nodup :=
  h.imp fun hne heq => hne (congrArg ReviewInfo.reviewId heq)

/-! ## Claim theorems on the eligibility engine -/

/-- C1: for a canonical review collection (pairwise-distinct review ids) and
an author not excluded by the allow-list, an older review — one other than
the first of that author's stable descending-by-timestamp sort — has its id
in the output of `findReviewsToMinimize` iff its `isMinimized` flag is false
and every one of its threads is resolved (vacuously true for no threads). -/
theorem older_review_minimized_iff
    (reviews : List ReviewInfo) (allowedUsers : List String) (r : ReviewInfo)
    (hids : reviews.Pairwise fun a b => a.reviewId ≠ b.reviewId)
    (hallow : allowedUsers = [] ∨ r.author ∈ allowedUsers)
    (holder : r ∈ (sortDesc (reviews.filter
      (fun x => x.author == r.author))).drop 1) :
    r.reviewId ∈ findReviewsToMinimize reviews allowedUsers ↔
      r.isMinimized = false ∧ ∀ t ∈ r.threads, t.isResolved = true := by
  have hrrev : r ∈ reviews :=
    (List.mem_filter.mp (mem_sortDesc.mp (List.mem_of_mem_drop holder))).1
  constructor
  · intro hmem
    obtain ⟨x, hx, hxi, hxmin, hxres, -⟩ := output_review_exists hmem
    have hxr : x = r := by
      by_contra hne
      exact ids_ne_of_pairwise hids hx hrrev hne hxi
    rw [hxr] at hxmin hxres
    exact ⟨hxmin, hxres⟩
  · rintro ⟨h1, h2⟩
    exact mem_findReviewsToMinimize_iff.mpr
      ⟨r.author, _, byAuthor_key_exists hrrev, hallow, r, holder, h1, h2, rfl⟩

/-- Witness for C1: with two reviews by one author, the older one being
fully resolved and not yet minimized, its id is selected. -/
theorem older_review_minimized_iff_witness :
    ("r1" : String) ∈ findReviewsToMinimize
      [⟨"r2", "alice", 2, false, [⟨"t2", false⟩]⟩,
       ⟨"r1", "alice", 1, false, [⟨"t1", true⟩]⟩] [] :=
  (older_review_minimized_iff
    [⟨"r2", "alice", 2, false, [⟨"t2", false⟩]⟩,
     ⟨"r1", "alice", 1, false, [⟨"t1", true⟩]⟩] []
    ⟨"r1", "alice", 1, false, [⟨"t1", true⟩]⟩
    (by decide) (Or.inl rfl) (by decide)).mpr (by decide)

/-- C2: for a canonical review collection, the head of an author's stable
descending-by-timestamp sort — the author having at least two reviews — is
never selected by `findReviewsToMinimize`, whatever its state. -/
theorem most_recent_review_never_minimized
    (reviews : List ReviewInfo) (allowedUsers : List String) (r : ReviewInfo)
    (hids : reviews.Pairwise fun a b => a.reviewId ≠ b.reviewId)
    (htwo : 2 ≤ (reviews.filter (fun x => x.author == r.author)).length)
    (hhead : (sortDesc (reviews.filter
      (fun x => x.author == r.author))).head? = some r) :
    r.reviewId ∉ findReviewsToMinimize reviews allowedUsers := by
  intro hmem
  obtain ⟨a, l, hal, hU, x, hx1, hx2, hx3, hx4⟩ :=
    mem_findReviewsToMinimize_iff.mp hmem
  have hl := byAuthor_mem_eq hal
  have hxl : x ∈ l := mem_sortDesc.mp (List.mem_of_mem_drop hx1)
  have hxrev : x ∈ reviews := by
    rw [hl] at hxl
    exact (List.mem_filter.mp hxl).1
  have hrrev : r ∈ reviews := by
    have hr : r ∈ sortDesc (reviews.filter (fun x => x.author == r.author)) :=
      List.mem_of_mem_head? hhead
    exact (List.mem_filter.mp (mem_sortDesc.mp hr)).1
  have hxr : x = r := by
    by_contra hne
    exact ids_ne_of_pairwise hids hxrev hrrev hne hx4
  have hax : a = r.author := by
    rw [hl] at hxl
    have := (List.mem_filter.mp hxl).2
    rw [hxr] at this
    exact (beq_iff_eq.mp this).symm
  rw [hl, hax] at hx1
  have hnodup : (sortDesc (reviews.filter
      (fun x => x.author == r.author))).Nodup :=
    sortDesc_nodup ((nodup_of_pairwise_ids hids).filter _)
  rcases hsd : sortDesc (reviews.filter (fun x => x.author == r.author)) with
    _ | ⟨y, tl⟩
  · rw [hsd] at hhead; cases hhead
  · rw [hsd] at hhead
    have hyr : y = r := by simpa using hhead
    rw [hsd] at hx1 hnodup
    simp only [List.drop_one, List.tail_cons] at hx1
    rw [hxr, ← hyr] at hx1
    exact (List.nodup_cons.mp hnodup).1 hx1

/-- Witness for C2: the most recent of two fully-resolved reviews is not
selected. -/
theorem most_recent_review_never_minimized_witness :
    ("r2" : String) ∉ findReviewsToMinimize
      [⟨"r2", "alice", 2, false, [⟨"t2", true⟩]⟩,
       ⟨"r1", "alice", 1, false, [⟨"t1", true⟩]⟩] [] :=
  most_recent_review_never_minimized
    [⟨"r2", "alice", 2, false, [⟨"t2", true⟩]⟩,
     ⟨"r1", "alice", 1, false, [⟨"t1", true⟩]⟩] []
    ⟨"r2", "alice", 2, false, [⟨"t2", true⟩]⟩
    (by decide) (by decide) (by decide)

/-- C3: with a non-empty allow-list every output id belongs to a review whose
author is an exact member of the list; and the empty allow-list gives the
same output as the list of every author present in the collection. -/
theorem allow_list_filter_and_empty_equiv
    (reviews : List ReviewInfo) (allowedUsers : List String) :
    (allowedUsers ≠ [] →
      ∀ i ∈ findReviewsToMinimize reviews allowedUsers,
        ∃ r, r ∈ reviews ∧ r.reviewId = i ∧ r.author ∈ allowedUsers) ∧
    findReviewsToMinimize reviews (reviews.map (fun r => r.author)) =
      findReviewsToMinimize reviews [] := by
  constructor
  · intro hne i hi
    obtain ⟨x, hx, hxi, -, -, hU⟩ := output_review_exists hi
    rcases hU with h | h
    · exact absurd h hne
    · exact ⟨x, hx, hxi, h⟩
  · unfold findReviewsToMinimize
    apply congrArg List.flatten
    apply List.map_congr_left
    intro p hp
    obtain ⟨x, hx, hxa⟩ := byAuthor_key_of_mem (a := p.1) (l := p.2)
      (by rwa [Prod.mk.eta])
    have hmem : p.1 ∈ reviews.map (fun r => r.author) :=
      hxa ▸ List.mem_map_of_mem _ hx
    unfold perAuthor
    rw [if_neg, if_neg]
    · simp
    · rw [allow_guard_eq_false (Or.inr hmem)]
      simp

/-- Witness for C3: with only "alice" allowed, the selected id belongs to an
alice review; the author-list equivalence is applied at the same input. -/
theorem allow_list_filter_and_empty_equiv_witness :
    (∃ r, r ∈ [ReviewInfo.mk "a2" "alice" 2 false [],
                ReviewInfo.mk "a1" "alice" 1 false [],
                ReviewInfo.mk "b2" "bob" 2 false [],
                ReviewInfo.mk "b1" "bob" 1 false []] ∧
      r.reviewId = "a1" ∧ r.author ∈ ["alice"]) :=
  (allow_list_filter_and_empty_equiv
    [ReviewInfo.mk "a2" "alice" 2 false [],
     ReviewInfo.mk "a1" "alice" 1 false [],
     ReviewInfo.mk "b2" "bob" 2 false [],
     ReviewInfo.mk "b1" "bob" 1 false []] ["alice"]).1
    (by decide) "a1" (by decide)

/-- The collection of the C6 claim: the input collection with `isMinimized`
set to `true` on exactly the reviews whose ids were selected, all other
fields unchanged. -/
def applyMinimize (reviews : List ReviewInfo) (ids : List String) :
    List ReviewInfo :=
  reviews.map (fun r =>
    if ids.contains r.reviewId then { r with isMinimized := true } else r)

/-- C6: if the previously selected reviews are marked minimized (all other
fields unchanged), a second run of `findReviewsToMinimize` selects none of
the previously selected ids. -/
theorem findReviewsToMinimize_idempotent
    (reviews : List ReviewInfo) (allowedUsers : List String) (i : String)
    (hi : i ∈ findReviewsToMinimize reviews allowedUsers) :
    i ∉ findReviewsToMinimize
        (applyMinimize reviews (findReviewsToMinimize reviews allowedUsers))
        allowedUsers := by
  intro hmem
  obtain ⟨x, hx, hxi, hxmin, -, -⟩ := output_review_exists hmem
  obtain ⟨r, hr, hrx⟩ := List.mem_map.mp hx
  by_cases hc : ((findReviewsToMinimize reviews allowedUsers).contains
      r.reviewId) = true
  · rw [if_pos hc] at hrx
    rw [← hrx] at hxmin
    cases hxmin
  · rw [if_neg hc] at hrx
    apply hc
    subst hrx
    rw [hxi]
    simpa using hi

/-- Witness for C6: re-running after marking "r1" minimized no longer
selects "r1". -/
theorem findReviewsToMinimize_idempotent_witness :
    ("r1" : String) ∉ findReviewsToMinimize
      (applyMinimize
        [⟨"r2", "alice", 2, false, [⟨"t2", false⟩]⟩,
         ⟨"r1", "alice", 1, false, [⟨"t1", true⟩]⟩]
        (findReviewsToMinimize
          [⟨"r2", "alice", 2, false, [⟨"t2", false⟩]⟩,
           ⟨"r1", "alice", 1, false, [⟨"t1", true⟩]⟩] [])) [] :=
  findReviewsToMinimize_idempotent
    [⟨"r2", "alice", 2, false, [⟨"t2", false⟩]⟩,
     ⟨"r1", "alice", 1, false, [⟨"t1", true⟩]⟩] [] "r1" (by decide)

/-- Helper for C9: members of a per-author output name reviews of that
author. -/
lemma perAuthor_id_witness {reviews : List ReviewInfo} {U : List String}
    {p : String × List ReviewInfo} {i : String}
    (hp : p ∈ byAuthor reviews) (hi : i ∈ perAuthor U p) :
    ∃ x, x ∈ reviews ∧ x.author = p.1 ∧ x.reviewId = i := by
  obtain ⟨-, x, hx1, -, -, hx4⟩ := perAuthor_mem_iff.mp hi
  have hxl : x ∈ p.2 := mem_sortDesc.mp (List.mem_of_mem_drop hx1)
  have hl := byAuthor_mem_eq (a := p.1) (l := p.2) (by rwa [Prod.mk.eta])
  rw [hl] at hxl
  obtain ⟨hxr, hxa⟩ := List.mem_filter.mp hxl
  exact ⟨x, hxr, beq_iff_eq.mp hxa, hx4⟩

/-- C9: every output id of `findReviewsToMinimize` is the `reviewId` of an
input review, and for pairwise-distinct input ids the output has no
duplicate. -/
theorem output_ids_sound_and_nodup
    (reviews : List ReviewInfo) (allowedUsers : List String) :
    (∀ i ∈ findReviewsToMinimize reviews allowedUsers,
      ∃ r, r ∈ reviews ∧ r.reviewId = i) ∧
    ((reviews.Pairwise fun a b => a.reviewId ≠ b.reviewId) →
      (findReviewsToMinimize reviews allowedUsers).Nodup) := by
  constructor
  · intro i hi
    obtain ⟨x, hx, hxi, -, -, -⟩ := output_review_exists hi
    exact ⟨x, hx, hxi⟩
  · intro hids
    unfold findReviewsToMinimize
    rw [List.nodup_flatten]
    constructor
    · intro s hs
      obtain ⟨p, hp, rfl⟩ := List.mem_map.mp hs
      unfold perAuthor
      by_cases hg : (decide (allowedUsers.length > 0) &&
          !(allowedUsers.contains p.1)) = true
      · rw [if_pos hg]; exact List.nodup_nil
      · rw [if_neg hg]
        have hl := byAuthor_mem_eq (a := p.1) (l := p.2) (by rwa [Prod.mk.eta])
        have hnod : (sortDesc p.2).Nodup := by
          rw [hl]
          exact sortDesc_nodup ((nodup_of_pairwise_ids hids).filter _)
        have hsub : ((sortDesc p.2).drop 1).Nodup :=
          hnod.sublist (List.drop_sublist 1 _)
        have hfil := hsub.filter
          (fun r => !r.isMinimized && r.threads.all (fun t => t.isResolved))
        apply hfil.map_on
        intro x hxm y hym hxy
        have hxrev : x ∈ reviews := by
          have hx2 : x ∈ p.2 := mem_sortDesc.mp
            (List.mem_of_mem_drop (List.mem_filter.mp hxm).1)
          rw [hl] at hx2
          exact (List.mem_filter.mp hx2).1
        have hyrev : y ∈ reviews := by
          have hy2 : y ∈ p.2 := mem_sortDesc.mp
            (List.mem_of_mem_drop (List.mem_filter.mp hym).1)
          rw [hl] at hy2
          exact (List.mem_filter.mp hy2).1
        by_contra hne
        exact ids_ne_of_pairwise hids hxrev hyrev hne hxy
    · have hkeys : (byAuthor reviews).Pairwise fun p q => p.1 ≠ q.1 :=
        List.pairwise_map.mp (byAuthor_keys_nodup reviews)
      apply List.pairwise_map.mpr
      apply hkeys.imp_of_mem
      intro p q hp hq hne i hip hiq
      obtain ⟨x, hxrev, hxa, hxi⟩ := perAuthor_id_witness hp hip
      obtain ⟨y, hyrev, hya, hyi⟩ := perAuthor_id_witness hq hiq
      have hxy : x = y := by
        by_contra hxyne
        exact ids_ne_of_pairwise hids hxrev hyrev hxyne (hyi ▸ hxi)
      exact hne (hxa ▸ hya ▸ hxy ▸ rfl)

/-- Witness for C9: on a concrete two-author input the output ids name input
reviews and are duplicate-free. -/
theorem output_ids_sound_and_nodup_witness :
    (∃ r, r ∈ [ReviewInfo.mk "a2" "alice" 2 false [],
               ReviewInfo.mk "a1" "alice" 1 false [],
               ReviewInfo.mk "b2" "bob" 2 false [],
               ReviewInfo.mk "b1" "bob" 1 false []] ∧ r.reviewId = "a1") ∧
    (findReviewsToMinimize
      [ReviewInfo.mk "a2" "alice" 2 false [],
       ReviewInfo.mk "a1" "alice" 1 false [],
       ReviewInfo.mk "b2" "bob" 2 false [],
       ReviewInfo.mk "b1" "bob" 1 false []] []).Nodup :=
  ⟨(output_ids_sound_and_nodup
      [ReviewInfo.mk "a2" "alice" 2 false [],
       ReviewInfo.mk "a1" "alice" 1 false [],
       ReviewInfo.mk "b2" "bob" 2 false [],
       ReviewInfo.mk "b1" "bob" 1 false []] []).1 "a1" (by decide),
   (output_ids_sound_and_nodup
      [ReviewInfo.mk "a2" "alice" 2 false [],
       ReviewInfo.mk "a1" "alice" 1 false [],
       ReviewInfo.mk "b2" "bob" 2 false [],
       ReviewInfo.mk "b1" "bob" 1 false []] []).2 (by decide)⟩

/-! ## Lemmas about `groupThreadsByReview` -/

/-- Negation of the skip condition of src/reviews.ts line 15: the thread has
a first comment carrying both an author and a review reference. -/
def validThread (t : ReviewThread) : Bool :=
  match t.comments.head? with
  | none => false
  | some c => c.author.isSome && c.pullRequestReview.isSome

/-- Whether a thread contributes to the review with identifier `rid`. -/
def contributesTo (rid : String) (t : ReviewThread) : Bool :=
  match t.comments.head? with
  | none => false
  | some c =>
    c.author.isSome &&
      (match c.pullRequestReview with
       | none => false
       | some rev => rev.id == rid)

/-- The thread summaries contributed to review `rid`, in input order. -/
def summaries (ts : List ReviewThread) (rid : String) : List ThreadInfo :=
  (ts.filter (contributesTo rid)).map (fun t => ⟨t.id, t.isResolved⟩)

/-- The `ReviewInfo` fields a valid thread initializes for its review
(src/reviews.ts lines 20-26), before any summary is appended. -/
def initFrom (t : ReviewThread) : Option ReviewInfo :=
  match t.comments.head? with
  | none => none
  | some c =>
    match c.author, c.pullRequestReview with
    | some a, some rev =>
      some ⟨rev.id, a.login, rev.createdAt, rev.isMinimized, []⟩
    | _, _ => none

lemma validThread_true {t : ReviewThread} (h : validThread t = true) :
    ∃ c a rev, t.comments.head? = some c ∧ c.author = some a ∧
      c.pullRequestReview = some rev := by
  cases hc : t.comments.head? with
  | none => simp [validThread, hc] at h
  | some c =>
    cases ha : c.author with
    | none => simp [validThread, hc, ha] at h
    | some a =>
      cases hrv : c.pullRequestReview with
      | none => simp [validThread, hc, ha, hrv] at h
      | some rev => exact ⟨c, a, rev, rfl, ha, hrv⟩

lemma groupStep_invalid {m : List ReviewInfo} {t : ReviewThread}
    (h : validThread t = false) : groupStep m t = m := by
  cases hc : t.comments.head? with
  | none => simp [groupStep, hc]
  | some c =>
    cases ha : c.author with
    | none => simp [groupStep, hc, ha]
    | some a =>
      cases hrv : c.pullRequestReview with
      | none => simp [groupStep, hc, ha, hrv]
      | some rev => simp [validThread, hc, ha, hrv] at h

lemma groupStep_valid {m : List ReviewInfo} {t : ReviewThread}
    {c : ReviewComment} {a : CommentAuthor} {rev : PullRequestReviewRef}
    (hc : t.comments.head? = some c) (ha : c.author = some a)
    (hrv : c.pullRequestReview = some rev) :
    groupStep m t =
      if m.any (fun ri => ri.reviewId == rev.id) then
        m.map (fun ri =>
          if ri.reviewId == rev.id then
            { ri with threads := ri.threads ++ [⟨t.id, t.isResolved⟩] }
          else ri)
      else
        m ++ [⟨rev.id, a.login, rev.createdAt, rev.isMinimized,
               [⟨t.id, t.isResolved⟩]⟩] := by
  simp [groupStep, hc, ha, hrv]

lemma contributesTo_of_valid {t : ReviewThread} {c : ReviewComment}
    {a : CommentAuthor} {rev : PullRequestReviewRef}
    (hc : t.comments.head? = some c) (ha : c.author = some a)
    (hrv : c.pullRequestReview = some rev) (rid : String) :
    contributesTo rid t = (rev.id == rid) := by
  simp [contributesTo, hc, ha, hrv]

lemma contributesTo_of_invalid {t : ReviewThread}
    (h : validThread t = false) (rid : String) :
    contributesTo rid t = false := by
  cases hc : t.comments.head? with
  | none => simp [contributesTo, hc]
  | some c =>
    cases ha : c.author with
    | none => simp [contributesTo, hc, ha]
    | some a =>
      cases hrv : c.pullRequestReview with
      | none => simp [contributesTo, hc, ha, hrv]
      | some rev => simp [validThread, hc, ha, hrv] at h

lemma initFrom_of_valid {t : ReviewThread} {c : ReviewComment}
    {a : CommentAuthor} {rev : PullRequestReviewRef}
    (hc : t.comments.head? = some c) (ha : c.author = some a)
    (hrv : c.pullRequestReview = some rev) :
    initFrom t = some ⟨rev.id, a.login, rev.createdAt, rev.isMinimized, []⟩ := by
  simp [initFrom, hc, ha, hrv]

lemma summaries_cons_of_pos {t : ReviewThread} {ts : List ReviewThread}
    {rid : String} (h : contributesTo rid t = true) :
    summaries (t :: ts) rid = ⟨t.id, t.isResolved⟩ :: summaries ts rid := by
  unfold summaries
  rw [List.filter_cons, if_pos h, List.map_cons]

lemma summaries_cons_of_neg {t : ReviewThread} {ts : List ReviewThread}
    {rid : String} (h : contributesTo rid t = false) :
    summaries (t :: ts) rid = summaries ts rid := by
  unfold summaries
  rw [List.filter_cons, if_neg (by simp [h])]

lemma contrib_filter_cons_pos {t : ReviewThread} {ts : List ReviewThread}
    {rid : String} (h : contributesTo rid t = true) :
    (t :: ts).filter (contributesTo rid) = t :: ts.filter (contributesTo rid) := by
  rw [List.filter_cons, if_pos h]

lemma contrib_filter_cons_neg {t : ReviewThread} {ts : List ReviewThread}
    {rid : String} (h : contributesTo rid t = false) :
    (t :: ts).filter (contributesTo rid) = ts.filter (contributesTo rid) := by
  rw [List.filter_cons, if_neg (by simp [h])]

/-- Skipped threads contribute nothing to the grouping fold. -/
lemma foldl_groupStep_filter (ts : List ReviewThread) :
    ∀ m : List ReviewInfo,
      ts.foldl groupStep m = (ts.filter validThread).foldl groupStep m := by
  induction ts with
  | nil => intro m; rfl
  | cons t ts ih =>
    intro m
    rw [List.filter_cons]
    by_cases h : validThread t = true
    · rw [if_pos h]
      simp only [List.foldl_cons]
      exact ih (groupStep m t)
    · rw [if_neg h]
      simp only [List.foldl_cons]
      rw [groupStep_invalid (Bool.not_eq_true _ ▸ h)]
      exact ih m

/-- Thread sets in the grouping fold are never empty. -/
lemma foldl_groupStep_threads_ne_nil (ts : List ReviewThread) :
    ∀ m : List ReviewInfo, (∀ r ∈ m, r.threads ≠ []) →
      ∀ r ∈ ts.foldl groupStep m, r.threads ≠ [] := by
  induction ts with
  | nil => intro m hm; simpa using hm
  | cons t ts ih =>
    intro m hm
    simp only [List.foldl_cons]
    apply ih
    intro r hr
    by_cases hv : validThread t = true
    · obtain ⟨c, a, rev, hc, ha, hrv⟩ := validThread_true hv
      rw [groupStep_valid hc ha hrv] at hr
      by_cases hq : (m.any fun ri => ri.reviewId == rev.id) = true
      · rw [if_pos hq] at hr
        obtain ⟨x, hx, hxe⟩ := List.mem_map.mp hr
        by_cases hxq : (x.reviewId == rev.id) = true
        · rw [if_pos hxq] at hxe
          rw [← hxe]
          simp
        · rw [if_neg hxq] at hxe
          exact hxe ▸ hm x hx
      · rw [if_neg hq] at hr
        rcases List.mem_append.mp hr with hr | hr
        · exact hm r hr
        · simp only [List.mem_singleton] at hr
          subst hr
          simp
    · rw [groupStep_invalid (Bool.not_eq_true _ ▸ hv)] at hr
      exact hm r hr

/-- Complete characterization of the grouping fold: an output entry either
extends an initial entry by the contributed summaries, or is freshly built
from the first contributing thread with all contributed summaries in input
order. -/
lemma foldl_groupStep_sound (ts : List ReviewThread) :
    ∀ (m : List ReviewInfo) (r : ReviewInfo), r ∈ ts.foldl groupStep m →
      (∃ r₀ ∈ m,
        r = { r₀ with threads := r₀.threads ++ summaries ts r₀.reviewId }) ∨
      ((∀ r₀ ∈ m, r₀.reviewId ≠ r.reviewId) ∧
        ∃ t ri₀, (ts.filter (contributesTo r.reviewId)).head? = some t ∧
          initFrom t = some ri₀ ∧
          r = { ri₀ with threads := summaries ts r.reviewId }) := by
  induction ts with
  | nil =>
    intro m r hr
    simp only [List.foldl_nil] at hr
    left
    refine ⟨r, hr, ?_⟩
    simp [summaries]
  | cons t ts ih =>
    intro m r hr
    simp only [List.foldl_cons] at hr
    by_cases hv : validThread t = true
    · obtain ⟨c, a, rev, hc, ha, hrv⟩ := validThread_true hv
      rw [groupStep_valid hc ha hrv] at hr
      by_cases hq : (m.any fun ri => ri.reviewId == rev.id) = true
      · rw [if_pos hq] at hr
        rcases ih _ r hr with ⟨r₀', hr₀'m, hre⟩ |
          ⟨hnone, t', ri₀, hh, hi, hre⟩
        · obtain ⟨r₀, hr₀, hupd⟩ := List.mem_map.mp hr₀'m
          left
          refine ⟨r₀, hr₀, ?_⟩
          by_cases hid : (r₀.reviewId == rev.id) = true
          · rw [if_pos hid] at hupd
            have hcontrib : contributesTo r₀.reviewId t = true := by
              rw [contributesTo_of_valid hc ha hrv]
              exact beq_iff_eq.mpr (beq_iff_eq.mp hid).symm
            rw [summaries_cons_of_pos hcontrib, hre, ← hupd]
            simp
          · rw [if_neg hid] at hupd
            have hcontrib : contributesTo r₀.reviewId t = false := by
              rw [contributesTo_of_valid hc ha hrv]
              exact beq_eq_false_iff_ne.mpr
                (fun he => hid (beq_iff_eq.mpr he.symm))
            rw [summaries_cons_of_neg hcontrib, hre, ← hupd]
        · right
          have hmain : ∀ r₀ ∈ m, r₀.reviewId ≠ r.reviewId := by
            intro r₀ hr₀
            have h' := hnone _ (List.mem_map_of_mem _ hr₀)
            by_cases hpq : (r₀.reviewId == rev.id) = true
            · rw [if_pos hpq] at h'
              exact h'
            · rw [if_neg hpq] at h'
              exact h'
          have hcontrib : contributesTo r.reviewId t = false := by
            rw [contributesTo_of_valid hc ha hrv]
            obtain ⟨p, hp, hpid⟩ := List.any_eq_true.mp hq
            have hne := hmain p hp
            have hpr : rev.id = p.reviewId := (beq_iff_eq.mp hpid).symm
            exact beq_eq_false_iff_ne.mpr (hpr ▸ hne)
          refine ⟨hmain, t', ri₀, ?_, hi, ?_⟩
          · rw [contrib_filter_cons_neg hcontrib]
            exact hh
          · rw [summaries_cons_of_neg hcontrib]
            exact hre
      · rw [if_neg hq] at hr
        have hnotin : ∀ p ∈ m, (p.reviewId == rev.id) = false := by
          intro p hp
          by_contra hne
          exact hq (List.any_eq_true.mpr ⟨p, hp, by simpa using hne⟩)
        rcases ih _ r hr with ⟨r₀', hr₀'m, hre⟩ |
          ⟨hnone, t', ri₀, hh, hi, hre⟩
        · rcases List.mem_append.mp hr₀'m with hr₀ | hr₀
          · left
            refine ⟨r₀', hr₀, ?_⟩
            have hcontrib : contributesTo r₀'.reviewId t = false := by
              rw [contributesTo_of_valid hc ha hrv]
              have hne := hnotin r₀' hr₀
              exact beq_eq_false_iff_ne.mpr
                (fun he => by rw [← he] at hne; simp at hne)
            rw [summaries_cons_of_neg hcontrib]
            exact hre
          · simp only [List.mem_singleton] at hr₀
            subst hr₀
            right
            have hcontrib : contributesTo rev.id t = true := by
              rw [contributesTo_of_valid hc ha hrv]
              simp
            have hrid : r.reviewId = rev.id := by rw [hre]
            constructor
            · intro r₀ hr₀
              have hne := hnotin r₀ hr₀
              rw [hrid]
              exact fun he => by rw [he] at hne; simp at hne
            · refine ⟨t, ⟨rev.id, a.login, rev.createdAt, rev.isMinimized, []⟩,
                ?_, initFrom_of_valid hc ha hrv, ?_⟩
              · rw [hrid, contrib_filter_cons_pos hcontrib]
                rfl
              · have hsum : summaries (t :: ts) r.reviewId =
                    ⟨t.id, t.isResolved⟩ :: summaries ts r.reviewId :=
                  summaries_cons_of_pos (by rw [hrid]; exact hcontrib)
                rw [hsum, hre]
                rfl
        · right
          have hrevne : rev.id ≠ r.reviewId := by
            have h' := hnone
              ⟨rev.id, a.login, rev.createdAt, rev.isMinimized,
               [⟨t.id, t.isResolved⟩]⟩
              (List.mem_append_right m (List.mem_singleton_self _))
            exact h'
          have hcontrib : contributesTo r.reviewId t = false := by
            rw [contributesTo_of_valid hc ha hrv]
            exact beq_eq_false_iff_ne.mpr hrevne
          refine ⟨fun r₀ hr₀ => hnone r₀ (List.mem_append_left _ hr₀),
            t', ri₀, ?_, hi, ?_⟩
          · rw [contrib_filter_cons_neg hcontrib]
            exact hh
          · rw [summaries_cons_of_neg hcontrib]
            exact hre
    · have hv' : validThread t = false := Bool.not_eq_true _ ▸ hv
      rw [groupStep_invalid hv'] at hr
      rcases ih m r hr with ⟨r₀, hr₀, hre⟩ | ⟨hnone, t', ri₀, hh, hi, hre⟩
      · left
        refine ⟨r₀, hr₀, ?_⟩
        rw [summaries_cons_of_neg (contributesTo_of_invalid hv' _)]
        exact hre
      · right
        refine ⟨hnone, t', ri₀, ?_, hi, ?_⟩
        · rw [contrib_filter_cons_neg (contributesTo_of_invalid hv' _)]
          exact hh
        · rw [summaries_cons_of_neg (contributesTo_of_invalid hv' _)]
          exact hre

/-! ## Claim theorems on the grouping function -/

/-- C4: `groupThreadsByReview` contributes nothing for threads with an empty
comment list, an authorless first comment, or a reviewless first comment
(dropping them from the input changes nothing), and every produced review
has a non-empty thread set. -/
theorem group_orphans_and_nonempty (ts : List ReviewThread) :
    groupThreadsByReview ts = groupThreadsByReview (ts.filter validThread) ∧
    ∀ r ∈ groupThreadsByReview ts, r.threads ≠ [] := by
  constructor
  · exact foldl_groupStep_filter ts []
  · exact foldl_groupStep_threads_ne_nil ts [] (by simp)

/-- Witness for C4: on one valid thread the produced review has a non-empty
thread set. -/
theorem group_orphans_and_nonempty_witness :
    (⟨"r1", "bob", 5, false, [⟨"t1", true⟩]⟩ : ReviewInfo).threads ≠ [] :=
  (group_orphans_and_nonempty
    [⟨"t1", true, [⟨some ⟨"bob"⟩, some ⟨"r1", 5, false⟩⟩]⟩]).2
    ⟨"r1", "bob", 5, false, [⟨"t1", true⟩]⟩ (by decide)

/-- C7: every review produced by `groupThreadsByReview` takes its author,
timestamp and minimized flag from the first input thread contributing to its
identifier (later threads never overwrite them), and its thread set is one
summary per contributing thread in input order. -/
theorem group_first_wins_and_order (ts : List ReviewThread) (r : ReviewInfo)
    (hr : r ∈ groupThreadsByReview ts) :
    ∃ t ri₀, (ts.filter (contributesTo r.reviewId)).head? = some t ∧
      initFrom t = some ri₀ ∧
      r = { ri₀ with threads := summaries ts r.reviewId } := by
  rcases foldl_groupStep_sound ts [] r hr with ⟨r₀, hr₀, -⟩ |
    ⟨-, t, ri₀, hh, hi, hre⟩
  · cases hr₀
  · exact ⟨t, ri₀, hh, hi, hre⟩

/-- Witness for C7: two threads referencing "r1" with conflicting metadata;
the grouped review keeps the first thread's fields and lists both summaries
in input order. -/
theorem group_first_wins_and_order_witness :
    ∃ t ri₀,
      (List.filter (contributesTo "r1")
        [⟨"t1", true, [⟨some ⟨"bob"⟩, some ⟨"r1", 5, false⟩⟩]⟩,
         ⟨"t2", false, [⟨some ⟨"carl"⟩, some ⟨"r1", 9, true⟩⟩]⟩]).head? =
          some t ∧
      initFrom t = some ri₀ ∧
      ReviewInfo.mk "r1" "bob" 5 false [⟨"t1", true⟩, ⟨"t2", false⟩] =
        { ri₀ with threads := (summaries
            [⟨"t1", true, [⟨some ⟨"bob"⟩, some ⟨"r1", 5, false⟩⟩]⟩,
             ⟨"t2", false, [⟨some ⟨"carl"⟩, some ⟨"r1", 9, true⟩⟩]⟩] "r1") } :=
  group_first_wins_and_order
    [⟨"t1", true, [⟨some ⟨"bob"⟩, some ⟨"r1", 5, false⟩⟩]⟩,
     ⟨"t2", false, [⟨some ⟨"carl"⟩, some ⟨"r1", 9, true⟩⟩]⟩]
    ⟨"r1", "bob", 5, false, [⟨"t1", true⟩, ⟨"t2", false⟩]⟩ (by decide)

/-! ## Lemmas about `buildReviewList` -/

/-- Review identifiers of a collection, in order. -/
def reviewIds (l : List ReviewInfo) : List String :=
  l.map (fun r => r.reviewId)

lemma bareStep_append (m : List ReviewInfo) (r : PullRequestReviewNode) :
    ∃ extra, bareStep m r = m ++ extra := by
  cases ha : r.author with
  | none => exact ⟨[], by simp [bareStep, ha]⟩
  | some a =>
    by_cases h : (m.any fun ri => ri.reviewId == r.id) = true
    · exact ⟨[], by simp [bareStep, ha, h]⟩
    · refine ⟨[⟨r.id, a.login, r.createdAt, r.isMinimized, []⟩], ?_⟩
      simp [bareStep, ha, h]

lemma foldl_bareStep_append (rs : List PullRequestReviewNode) :
    ∀ m : List ReviewInfo, ∃ extra, rs.foldl bareStep m = m ++ extra := by
  induction rs with
  | nil => intro m; exact ⟨[], by simp⟩
  | cons r rs ih =>
    intro m
    obtain ⟨e0, h0⟩ := bareStep_append m r
    obtain ⟨e1, h1⟩ := ih (bareStep m r)
    exact ⟨e0 ++ e1, by rw [List.foldl_cons, h1, h0, List.append_assoc]⟩

lemma foldl_bareStep_mono {rs : List PullRequestReviewNode}
    {m : List ReviewInfo} {x : ReviewInfo} (hx : x ∈ m) :
    x ∈ rs.foldl bareStep m := by
  obtain ⟨extra, he⟩ := foldl_bareStep_append rs m
  rw [he]
  exact List.mem_append_left _ hx

/-- The ids of the grouping-map update branch are unchanged. -/
lemma groupStep_update_ids (m : List ReviewInfo) (q : String)
    (s : ThreadInfo) :
    reviewIds (m.map (fun ri =>
      if ri.reviewId == q then { ri with threads := ri.threads ++ [s] }
      else ri)) = reviewIds m := by
  unfold reviewIds
  rw [List.map_map]
  apply List.map_congr_left
  intro ri hri
  by_cases h : (ri.reviewId == q) = true
  · simp only [Function.comp_apply, if_pos h]
  · simp only [Function.comp_apply, if_neg h]

lemma groupStep_ids_nodup {m : List ReviewInfo} {t : ReviewThread}
    (h : (reviewIds m).Nodup) : (reviewIds (groupStep m t)).Nodup := by
  by_cases hv : validThread t = true
  · obtain ⟨c, a, rev, hc, ha, hrv⟩ := validThread_true hv
    rw [groupStep_valid hc ha hrv]
    by_cases hq : (m.any fun ri => ri.reviewId == rev.id) = true
    · rw [if_pos hq, groupStep_update_ids]
      exact h
    · rw [if_neg hq]
      unfold reviewIds
      rw [List.map_append, List.nodup_append]
      refine ⟨h, by simp, ?_⟩
      intro x hx
      simp only [List.map_cons, List.map_nil, List.mem_singleton]
      intro hxe
      subst hxe
      obtain ⟨p, hp, hpe⟩ := List.mem_map.mp hx
      exact hq (List.any_eq_true.mpr ⟨p, hp, by simp [hpe]⟩)
  · rw [groupStep_invalid (Bool.not_eq_true _ ▸ hv)]
    exact h

lemma foldl_groupStep_ids_nodup (ts : List ReviewThread) :
    ∀ m : List ReviewInfo, (reviewIds m).Nodup →
      (reviewIds (ts.foldl groupStep m)).Nodup := by
  induction ts with
  | nil => intro m hm; simpa using hm
  | cons t ts ih =>
    intro m hm
    simp only [List.foldl_cons]
    exact ih _ (groupStep_ids_nodup hm)

lemma groupThreadsByReview_ids_nodup (ts : List ReviewThread) :
    (reviewIds (groupThreadsByReview ts)).Nodup :=
  foldl_groupStep_ids_nodup ts [] (by simp [reviewIds])

lemma bareStep_ids_nodup {m : List ReviewInfo} {r : PullRequestReviewNode}
    (h : (reviewIds m).Nodup) : (reviewIds (bareStep m r)).Nodup := by
  cases ha : r.author with
  | none => simpa [bareStep, ha] using h
  | some a =>
    by_cases hq : (m.any fun ri => ri.reviewId == r.id) = true
    · simpa [bareStep, ha, hq] using h
    · have hstep : bareStep m r =
          m ++ [⟨r.id, a.login, r.createdAt, r.isMinimized, []⟩] := by
        simp [bareStep, ha, hq]
      rw [hstep]
      unfold reviewIds
      rw [List.map_append, List.nodup_append]
      refine ⟨h, by simp, ?_⟩
      intro x hx
      simp only [List.map_cons, List.map_nil, List.mem_singleton]
      intro hxe
      subst hxe
      obtain ⟨p, hp, hpe⟩ := List.mem_map.mp hx
      exact hq (List.any_eq_true.mpr ⟨p, hp, by simp [hpe]⟩)

lemma foldl_bareStep_ids_nodup (rs : List PullRequestReviewNode) :
    ∀ m : List ReviewInfo, (reviewIds m).Nodup →
      (reviewIds (rs.foldl bareStep m)).Nodup := by
  induction rs with
  | nil => intro m hm; simpa using hm
  | cons r rs ih =>
    intro m hm
    simp only [List.foldl_cons]
    exact ih _ (bareStep_ids_nodup hm)

/-- Entries added by the bare pass have empty thread sets. -/
lemma foldl_bareStep_new_threads (rs : List PullRequestReviewNode) :
    ∀ m : List ReviewInfo, ∀ e ∈ rs.foldl bareStep m,
      e ∈ m ∨ e.threads = [] := by
  induction rs with
  | nil => intro m e he; exact Or.inl (by simpa using he)
  | cons r rs ih =>
    intro m e he
    simp only [List.foldl_cons] at he
    rcases ih (bareStep m r) e he with hmem | hth
    · cases ha : r.author with
      | none => exact Or.inl (by simpa [bareStep, ha] using hmem)
      | some a =>
        by_cases hq : (m.any fun ri => ri.reviewId == r.id) = true
        · exact Or.inl (by simpa [bareStep, ha, hq] using hmem)
        · have hstep : bareStep m r =
              m ++ [⟨r.id, a.login, r.createdAt, r.isMinimized, []⟩] := by
            simp [bareStep, ha, hq]
          rw [hstep] at hmem
          rcases List.mem_append.mp hmem with hmem | hmem
          · exact Or.inl hmem
          · simp only [List.mem_singleton] at hmem
            subst hmem
            exact Or.inr rfl
    · exact Or.inr hth

/-- A bare record whose id is only ever mapped to thread-less entries ends up
represented by a thread-less entry. -/
lemma foldl_bareStep_exists (rs : List PullRequestReviewNode) :
    ∀ (m : List ReviewInfo) (br : PullRequestReviewNode), br ∈ rs →
      br.author.isSome = true →
      (∀ x ∈ m, x.reviewId = br.id → x.threads = []) →
      ∃ e ∈ rs.foldl bareStep m, e.reviewId = br.id ∧ e.threads = [] := by
  induction rs with
  | nil => intro m br hbr; cases hbr
  | cons r rs ih =>
    intro m br hbr hauth hinv
    simp only [List.foldl_cons]
    rcases List.mem_cons.mp hbr with heq | hbr'
    · subst heq
      cases ha : br.author with
      | none => rw [ha] at hauth; cases hauth
      | some a =>
        by_cases hq : (m.any fun ri => ri.reviewId == br.id) = true
        · obtain ⟨x, hx, hxid⟩ := List.any_eq_true.mp hq
          have hxe : x.reviewId = br.id := beq_iff_eq.mp hxid
          have hxmem : x ∈ bareStep m br := by
            obtain ⟨e0, h0⟩ := bareStep_append m br
            rw [h0]
            exact List.mem_append_left _ hx
          exact ⟨x, foldl_bareStep_mono hxmem, hxe, hinv x hx hxe⟩
        · have hstep : bareStep m br =
              m ++ [⟨br.id, a.login, br.createdAt, br.isMinimized, []⟩] := by
            simp [bareStep, ha, hq]
          refine ⟨⟨br.id, a.login, br.createdAt, br.isMinimized, []⟩,
            foldl_bareStep_mono ?_, rfl, rfl⟩
          rw [hstep]
          exact List.mem_append_right _ (by simp)
    · apply ih (bareStep m r) br hbr' hauth
      intro x hx hxid
      cases ha : r.author with
      | none => exact hinv x (by simpa [bareStep, ha] using hx) hxid
      | some a =>
        by_cases hq : (m.any fun ri => ri.reviewId == r.id) = true
        · exact hinv x (by simpa [bareStep, ha, hq] using hx) hxid
        · have hstep : bareStep m r =
              m ++ [⟨r.id, a.login, r.createdAt, r.isMinimized, []⟩] := by
            simp [bareStep, ha, hq]
          rw [hstep] at hx
          rcases List.mem_append.mp hx with hx | hx
          · exact hinv x hx hxid
          · simp only [List.mem_singleton] at hx
            subst hx
            rfl

/-- Authorless bare records contribute nothing to the bare pass. -/
lemma foldl_bareStep_filter (rs : List PullRequestReviewNode) :
    ∀ m : List ReviewInfo,
      rs.foldl bareStep m =
        (rs.filter (fun r => r.author.isSome)).foldl bareStep m := by
  induction rs with
  | nil => intro m; rfl
  | cons r rs ih =>
    intro m
    rw [List.filter_cons]
    cases ha : r.author with
    | none =>
      rw [if_neg (by simp [ha])]
      simp only [List.foldl_cons]
      have hstep : bareStep m r = m := by simp [bareStep, ha]
      rw [hstep]
      exact ih m
    | some a =>
      rw [if_pos (by simp [ha])]
      simp only [List.foldl_cons]
      exact ih (bareStep m r)

/-- In a collection with distinct ids, an id that occurs occurs exactly
once. -/
lemma countP_id_eq_one : ∀ l : List ReviewInfo, (reviewIds l).Nodup →
    ∀ i : String, (∃ e ∈ l, e.reviewId = i) →
      l.countP (fun x => x.reviewId == i) = 1 := by
  intro l
  induction l with
  | nil => intro _ i hi; obtain ⟨e, he, -⟩ := hi; cases he
  | cons x l ih =>
    intro hnd i hi
    have hnd' := hnd
    unfold reviewIds at hnd'
    rw [List.map_cons, List.nodup_cons] at hnd'
    obtain ⟨hxnot, hlnd⟩ := hnd'
    obtain ⟨e, he, hei⟩ := hi
    rw [List.countP_cons]
    rcases List.mem_cons.mp he with heq | he'
    · subst heq
      rw [if_pos (by simp [hei])]
      have hzero : l.countP (fun x => x.reviewId == i) = 0 := by
        apply List.countP_eq_zero.mpr
        intro y hy hyc
        apply hxnot
        rw [hei, ← beq_iff_eq.mp hyc]
        exact List.mem_map_of_mem _ hy
      rw [hzero]
    · have hxne : ¬(x.reviewId == i) = true := by
        intro hc
        apply hxnot
        rw [beq_iff_eq.mp hc, ← hei]
        exact List.mem_map_of_mem _ he'
      rw [if_neg hxne]
      rw [ih hlnd i ⟨e, he', hei⟩]

/-! ## Claim theorem on `buildReviewList` (C5) -/

/-- C5: the merged collection has pairwise-distinct review ids; a bare record
with an author whose id was not discovered through threads is represented
exactly once, by a thread-less entry; authorless bare records never
contribute; and every thread-derived review survives unchanged. -/
theorem buildReviewList_merge_invariants (ts : List ReviewThread)
    (rs : List PullRequestReviewNode) :
    (reviewIds (buildReviewList ts rs)).Nodup ∧
    (∀ br ∈ rs, br.author.isSome = true →
      (∀ g ∈ groupThreadsByReview ts, g.reviewId ≠ br.id) →
      (buildReviewList ts rs).countP (fun x => x.reviewId == br.id) = 1 ∧
      ∀ e ∈ buildReviewList ts rs, e.reviewId = br.id → e.threads = []) ∧
    buildReviewList ts rs =
      buildReviewList ts (rs.filter (fun r => r.author.isSome)) ∧
    ∀ g ∈ groupThreadsByReview ts, g ∈ buildReviewList ts rs := by
  have hnd : (reviewIds (buildReviewList ts rs)).Nodup :=
    foldl_bareStep_ids_nodup rs _ (groupThreadsByReview_ids_nodup ts)
  refine ⟨hnd, ?_, foldl_bareStep_filter rs _, fun g hg =>
    foldl_bareStep_mono hg⟩
  intro br hbr hauth hng
  have hex : ∃ e ∈ buildReviewList ts rs, e.reviewId = br.id ∧
      e.threads = [] := by
    apply foldl_bareStep_exists rs _ br hbr hauth
    intro x hx hxid
    exact absurd hxid (hng x hx)
  obtain ⟨e, he, hei, -⟩ := hex
  refine ⟨countP_id_eq_one _ hnd br.id ⟨e, he, hei⟩, ?_⟩
  intro x hx hxid
  rcases foldl_bareStep_new_threads rs _ x hx with hmem | hth
  · exact absurd hxid (hng x hmem)
  · exact hth

/-- Witness for C5: a bare approval "r3" absent from the threads is kept once
with no threads, and the thread-derived "r1" survives. -/
theorem buildReviewList_merge_invariants_witness :
    (buildReviewList
      [⟨"t1", true, [⟨some ⟨"bob"⟩, some ⟨"r1", 5, false⟩⟩]⟩]
      [⟨"r1", some ⟨"x"⟩, 7, true⟩, ⟨"r2", none, 3, false⟩,
       ⟨"r3", some ⟨"y"⟩, 4, false⟩]).countP
        (fun x => x.reviewId == "r3") = 1 :=
  ((buildReviewList_merge_invariants
    [⟨"t1", true, [⟨some ⟨"bob"⟩, some ⟨"r1", 5, false⟩⟩]⟩]
    [⟨"r1", some ⟨"x"⟩, 7, true⟩, ⟨"r2", none, 3, false⟩,
     ⟨"r3", some ⟨"y"⟩, 4, false⟩]).2.1
    ⟨"r3", some ⟨"y"⟩, 4, false⟩ (by decide) (by decide) (by decide)).1

/-! ## Ordering of `buildReviewList` (C10) -/

/-- The parent-review id a thread is attributed to, when valid. -/
def threadRefId (t : ReviewThread) : Option String :=
  match t.comments.head? with
  | none => none
  | some c =>
    match c.author, c.pullRequestReview with
    | some _, some rev => some rev.id
    | _, _ => none

/-- First-occurrence deduplication, keeping input order. -/
def firstDedup : List String → List String
  | [] => []
  | x :: xs => x :: (firstDedup xs).filter (fun y => !(y == x))

/-- Spec-side ordering description of the bare-only block: walk the bare
records in input order, skipping authorless ones and ids already seen,
emitting thread-less entries. -/
def bareExtrasAux (seen : List String) :
    List PullRequestReviewNode → List ReviewInfo
  | [] => []
  | r :: rest =>
    match r.author with
    | none => bareExtrasAux seen rest
    | some a =>
      if seen.contains r.id then bareExtrasAux seen rest
      else ⟨r.id, a.login, r.createdAt, r.isMinimized, []⟩ ::
        bareExtrasAux (r.id :: seen) rest

/-- The bare-only block: bare reviews with an author whose id is not among
the thread-derived ids, in bare input order. -/
def bareOnlyReviews (ts : List ReviewThread)
    (rs : List PullRequestReviewNode) : List ReviewInfo :=
  bareExtrasAux (reviewIds (groupThreadsByReview ts)) rs

lemma threadRefId_of_invalid {t : ReviewThread}
    (h : validThread t = false) : threadRefId t = none := by
  cases hc : t.comments.head? with
  | none => simp [threadRefId, hc]
  | some c =>
    cases ha : c.author with
    | none => simp [threadRefId, hc, ha]
    | some a =>
      cases hrv : c.pullRequestReview with
      | none => simp [threadRefId, hc, ha, hrv]
      | some rev => simp [validThread, hc, ha, hrv] at h

lemma contains_append_singleton (s : List String) (q x : String) :
    (s ++ [q]).contains x = ((x == q) || s.contains x) := by
  induction s with
  | nil => rw [List.nil_append, List.contains_cons]
  | cons a s ih =>
    rw [List.cons_append, List.contains_cons, ih, List.contains_cons]
    cases x == a <;> cases x == q <;> simp

lemma bareExtrasAux_congr : ∀ (rest : List PullRequestReviewNode)
    (s₁ s₂ : List String), (∀ x, s₁.contains x = s₂.contains x) →
    bareExtrasAux s₁ rest = bareExtrasAux s₂ rest := by
  intro rest
  induction rest with
  | nil => intro s₁ s₂ h; rfl
  | cons r rest ih =>
    intro s₁ s₂ h
    cases ha : r.author with
    | none =>
      simp only [bareExtrasAux, ha]
      exact ih s₁ s₂ h
    | some a =>
      simp only [bareExtrasAux, ha]
      rw [h r.id]
      by_cases hc : (s₂.contains r.id) = true
      · rw [if_pos hc, if_pos hc]
        exact ih s₁ s₂ h
      · rw [if_neg hc, if_neg hc]
        refine congrArg (List.cons _) (ih _ _ (fun x => ?_))
        rw [List.contains_cons, List.contains_cons, h x]

/-- The bare pass appends exactly the spec-side bare-only block. -/
lemma foldl_bareStep_eq_append (rs : List PullRequestReviewNode) :
    ∀ m : List ReviewInfo,
      rs.foldl bareStep m = m ++ bareExtrasAux (reviewIds m) rs := by
  induction rs with
  | nil => intro m; simp [bareExtrasAux]
  | cons r rs ih =>
    intro m
    simp only [List.foldl_cons]
    cases ha : r.author with
    | none =>
      have hstep : bareStep m r = m := by simp [bareStep, ha]
      rw [hstep, ih m]
      congr 1
      simp only [bareExtrasAux, ha]
    | some a =>
      by_cases hq : (m.any fun ri => ri.reviewId == r.id) = true
      · have hstep : bareStep m r = m := by simp [bareStep, ha, hq]
        have hcont : (reviewIds m).contains r.id = true := by
          obtain ⟨p, hp, hpe⟩ := List.any_eq_true.mp hq
          have hmm : r.id ∈ reviewIds m := by
            rw [← beq_iff_eq.mp hpe]
            exact List.mem_map_of_mem _ hp
          simpa using hmm
        rw [hstep, ih m]
        congr 1
        simp only [bareExtrasAux, ha]
        rw [if_pos hcont]
      · have hstep : bareStep m r =
            m ++ [⟨r.id, a.login, r.createdAt, r.isMinimized, []⟩] := by
          simp [bareStep, ha, hq]
        have hncont : ¬((reviewIds m).contains r.id = true) := by
          intro hcc
          have hmm : r.id ∈ reviewIds m := by simpa using hcc
          obtain ⟨p, hp, hpe⟩ := List.mem_map.mp hmm
          exact hq (List.any_eq_true.mpr ⟨p, hp, beq_iff_eq.mpr hpe⟩)
        have hrhs : bareExtrasAux (reviewIds m) (r :: rs) =
            ⟨r.id, a.login, r.createdAt, r.isMinimized, []⟩ ::
              bareExtrasAux (r.id :: reviewIds m) rs := by
          simp only [bareExtrasAux, ha]
          rw [if_neg hncont]
        have hids : reviewIds (m ++
            [⟨r.id, a.login, r.createdAt, r.isMinimized, []⟩]) =
            reviewIds m ++ [r.id] := by
          simp [reviewIds]
        rw [hstep, ih _, hrhs, List.append_assoc, hids,
          List.singleton_append]
        congr 1
        congr 1
        apply bareExtrasAux_congr
        intro x
        rw [contains_append_singleton, List.contains_cons]

/-- Ids of the grouping fold: the initial ids followed by the first
occurrences of the thread-referenced ids not already present. -/
lemma foldl_groupStep_ids (ts : List ReviewThread) :
    ∀ m : List ReviewInfo,
      reviewIds (ts.foldl groupStep m) =
        reviewIds m ++ (firstDedup (ts.filterMap threadRefId)).filter
          (fun i => !((reviewIds m).contains i)) := by
  induction ts with
  | nil => intro m; simp [firstDedup]
  | cons t ts ih =>
    intro m
    simp only [List.foldl_cons]
    by_cases hv : validThread t = true
    · obtain ⟨c, a, rev, hc, ha, hrv⟩ := validThread_true hv
      have href : threadRefId t = some rev.id := by
        simp [threadRefId, hc, ha, hrv]
      rw [groupStep_valid hc ha hrv]
      simp only [List.filterMap_cons, href]
      by_cases hq : (m.any fun ri => ri.reviewId == rev.id) = true
      · have hcont : (reviewIds m).contains rev.id = true := by
          obtain ⟨p, hp, hpe⟩ := List.any_eq_true.mp hq
          have hmm : rev.id ∈ reviewIds m := by
            rw [← beq_iff_eq.mp hpe]
            exact List.mem_map_of_mem _ hp
          simpa using hmm
        rw [if_pos hq, ih _, groupStep_update_ids]
        congr 1
        simp only [firstDedup, List.filter_cons, hcont, Bool.not_true]
        rw [if_neg (by simp), List.filter_filter]
        apply List.filter_congr
        intro y hy
        cases hym : (reviewIds m).contains y with
        | true => simp
        | false =>
          have hyne : (y == rev.id) = false := by
            cases hye : (y == rev.id) with
            | false => rfl
            | true =>
              have hyr : y = rev.id := beq_iff_eq.mp hye
              rw [hyr, hcont] at hym
              cases hym
          rw [hyne]
          simp
      · have hncont : ((reviewIds m).contains rev.id) = false := by
          cases hcc : (reviewIds m).contains rev.id with
          | false => rfl
          | true =>
            exfalso
            apply hq
            have hmm : rev.id ∈ reviewIds m := by simpa using hcc
            obtain ⟨p, hp, hpe⟩ := List.mem_map.mp hmm
            exact List.any_eq_true.mpr ⟨p, hp, beq_iff_eq.mpr hpe⟩
        rw [if_neg hq, ih _]
        have hids : reviewIds (m ++
            [⟨rev.id, a.login, rev.createdAt, rev.isMinimized,
              [⟨t.id, t.isResolved⟩]⟩]) = reviewIds m ++ [rev.id] := by
          simp [reviewIds]
        rw [hids, List.append_assoc]
        congr 1
        simp only [firstDedup, List.filter_cons, hncont, Bool.not_false]
        rw [if_pos (by simp), List.filter_filter, List.singleton_append]
        congr 1
        apply List.filter_congr
        intro y hy
        rw [contains_append_singleton, Bool.not_or]
        exact Bool.and_comm _ _
    · have hv' : validThread t = false := Bool.not_eq_true _ ▸ hv
      rw [groupStep_invalid hv']
      simp only [List.filterMap_cons, threadRefId_of_invalid hv']
      exact ih m

/-- C10: the canonical collection is the thread-derived block followed by the
bare-only block in bare input order, and the thread-derived block lists
review ids in order of first occurrence among the threads. -/
theorem buildReviewList_order (ts : List ReviewThread)
    (rs : List PullRequestReviewNode) :
    buildReviewList ts rs =
      groupThreadsByReview ts ++ bareOnlyReviews ts rs ∧
    reviewIds (groupThreadsByReview ts) =
      firstDedup (ts.filterMap threadRefId) := by
  constructor
  · exact foldl_bareStep_eq_append rs _
  · have h := foldl_groupStep_ids ts []
    simpa [reviewIds] using h

/-! ## Pagination (C8) -/

/-- One page delivered by the GraphQL fetch contract: the node list plus the
`pageInfo` has-more flag and cursor (part_002 `PageInfo`). -/
structure Page (α : Type) where
  nodes : List α
  hasNextPage : Bool
  endCursor : Option String
deriving Repr, DecidableEq

/-- The `for (;;)` pagination loop shared by `fetchAllReviewThreads` and
`fetchAllReviews` (part_002 lines 114-126 and 141-153), over the finite
sequence of pages the contract delivers in response order.  Returns the
accumulated nodes together with the cursor sent on each issued request:
the loop requests with the current cursor, appends the page's nodes, stops
when the has-more flag is clear, and otherwise continues with the returned
cursor. -/
def paginate {α : Type} : List (Page α) → Option String →
    List α × List (Option String)
  | [], _ => ([], [])
  | p :: ps, cursor =>
    if p.hasNextPage then
      ((p.nodes ++ (paginate ps p.endCursor).1),
        cursor :: (paginate ps p.endCursor).2)
    else (p.nodes, [cursor])

/-- part_002 `fetchAllReviewThreads`: start the loop with a null cursor. -/
def fetchAllReviewThreads (pages : List (Page ReviewThread)) :
    List ReviewThread × List (Option String) :=
  paginate pages none

/-- part_002 `fetchAllReviews`: start the loop with a null cursor. -/
def fetchAllReviews (pages : List (Page PullRequestReviewNode)) :
    List PullRequestReviewNode × List (Option String) :=
  paginate pages none

/-- part_002 `fetchPullRequestData`: both pagination loops are run to
completion and both materialized collections are returned. -/
def fetchPullRequestData (threadPages : List (Page ReviewThread))
    (reviewPages : List (Page PullRequestReviewNode)) :
    (List ReviewThread × List (Option String)) ×
      (List PullRequestReviewNode × List (Option String)) :=
  (fetchAllReviewThreads threadPages, fetchAllReviews reviewPages)

lemma paginate_spec {α : Type} (ps : List (Page α)) (last : Page α)
    (c : Option String) (hps : ∀ p ∈ ps, p.hasNextPage = true)
    (hlast : last.hasNextPage = false) :
    paginate (ps ++ [last]) c =
      (((ps ++ [last]).map Page.nodes).flatten,
        c :: ps.map Page.endCursor) := by
  induction ps generalizing c with
  | nil =>
    simp only [List.nil_append, List.map_cons, List.map_nil]
    unfold paginate
    rw [if_neg (by simp [hlast])]
    simp
  | cons p ps ih =>
    have hp : p.hasNextPage = true := hps p (List.mem_cons_self p ps)
    have hps' : ∀ q ∈ ps, q.hasNextPage = true := fun q hq =>
      hps q (List.mem_cons_of_mem p hq)
    simp only [List.cons_append]
    unfold paginate
    rw [if_pos hp, ih p.endCursor hps']
    simp

/-- C8: for any finite page sequence in which every page but the last
signals more and the last does not, each fetch loop issues its first request
with a null cursor, re-issues with each returned cursor exactly while the
has-more flag is set, and returns the pages' nodes concatenated in fetch
order; `fetchPullRequestData` returns both materialized collections. -/
theorem pagination_loop_spec
    (tps : List (Page ReviewThread)) (tlast : Page ReviewThread)
    (rps : List (Page PullRequestReviewNode))
    (rlast : Page PullRequestReviewNode)
    (ht : ∀ p ∈ tps, p.hasNextPage = true) (htl : tlast.hasNextPage = false)
    (hr : ∀ p ∈ rps, p.hasNextPage = true) (hrl : rlast.hasNextPage = false) :
    fetchAllReviewThreads (tps ++ [tlast]) =
      (((tps ++ [tlast]).map Page.nodes).flatten,
        none :: tps.map Page.endCursor) ∧
    fetchAllReviews (rps ++ [rlast]) =
      (((rps ++ [rlast]).map Page.nodes).flatten,
        none :: rps.map Page.endCursor) ∧
    fetchPullRequestData (tps ++ [tlast]) (rps ++ [rlast]) =
      ((((tps ++ [tlast]).map Page.nodes).flatten,
         none :: tps.map Page.endCursor),
       (((rps ++ [rlast]).map Page.nodes).flatten,
         none :: rps.map Page.endCursor)) := by
  have h1 := paginate_spec tps tlast none ht htl
  have h2 := paginate_spec rps rlast none hr hrl
  exact ⟨h1, h2, by
    unfold fetchPullRequestData fetchAllReviewThreads fetchAllReviews
    rw [h1, h2]⟩

/-- Witness for C8: two thread pages (the first signalling more, with a
cursor) and one review page. -/
theorem pagination_loop_spec_witness :
    fetchAllReviewThreads
      [⟨[⟨"t1", true, []⟩], true, some "cur1"⟩,
       ⟨[⟨"t2", false, []⟩], false, none⟩] =
      ([⟨"t1", true, []⟩, ⟨"t2", false, []⟩],
        [none, some "cur1"]) :=
  by
    have h := (pagination_loop_spec
      [⟨[⟨"t1", true, []⟩], true, some "cur1"⟩]
      ⟨[⟨"t2", false, []⟩], false, none⟩
      [] ⟨[⟨"r1", some ⟨"x"⟩, 1, false⟩], false, none⟩
      (by decide) (by decide) (by decide) (by decide)).1
    simpa using h

end MinimizeReviews
